import Mathlib

/-!
Shallow embedding of the query-orchestration pipeline of a retrieval-augmented
question-answering service, together with proofs about it.

Embedded components (each `def` mirrors the named Python function):
* `dedupe_sources`      — app/utils/helpers.py
* `simple_chunks`       — app/text_extraction.py
* `classifyIntent`      — app/services/rag_service.py (_classify_question_intent)
* `resolveModel`        — app/services/model_service.py (resolve_model)
* `strongChunks`, `ragDecision`, event streams — app/services/rag_service.py
  (handle_rag_query and the _stream_* generators)
* `handleRagQueryState` — the persistence ordering of handle_rag_query

Similarity scores are modelled as rationals (the Python code treats them as
real numbers in [0,1]; no float-rounding behaviour is at stake in the claims
except `round(·, 3)`, modelled by `round3`).
-/

namespace RagSpec

/-- Python `s.strip()` on a character list: drop whitespace from both ends. -/
def stripChars (l : List Char) : List Char :=
  ((l.dropWhile Char.isWhitespace).reverse.dropWhile Char.isWhitespace).reverse

/-- Python `s.strip()` on a string. -/
def stripStr (s : String) : String := ⟨stripChars s.data⟩

/-- Python `s.lower()` on a string: lowercase each character. -/
def lowerStr (s : String) : String := ⟨s.data.map Char.toLower⟩

/-- Python `s[:n]` on a string. -/
def takeStr (s : String) (n : Nat) : String := ⟨s.data.take n⟩

/-- A retrieved chunk as handed to the orchestrator: the keys of the dict
produced by `search_similar` that the pipeline reads (`filename`, `score`,
`content`). -/
structure Chunk where
  filename : String
  score : ℚ
  content : String
deriving DecidableEq

/-- One deduplicated source entry as produced by `dedupe_sources`
(`filename`, `score`, `preview` keys). -/
structure Source where
  filename : String
  score : ℚ
  preview : String
deriving DecidableEq

/-- One entry of the `source_map` dict inside `dedupe_sources`:
filename ↦ (score, content). Association list in insertion order, which is
how a Python dict iterates. -/
abbrev MapEntry := String × ℚ × String

/-- The update `source_map[filename] = {...}` guarded by
`if filename not in source_map or score > source_map[filename]["score"]`:
a new key is appended at the end, an existing key is updated in place
(Python dicts keep the original insertion position on update) and only
when the new score is strictly greater. -/
def upsert (f : String) (s : ℚ) (c : String) : List MapEntry → List MapEntry
  | [] => [(f, s, c)]
  | e :: rest =>
      if e.1 = f then
        (if e.2.1 < s then (f, s, c) else e) :: rest
      else
        e :: upsert f s c rest

/-- The `for chunk in chunks` loop of `dedupe_sources` building `source_map`. -/
def sourceMap (chunks : List Chunk) : List MapEntry :=
  chunks.foldl (fun m ch => upsert ch.filename ch.score ch.content m) []

/-- Insert into a list sorted descending by `key`, keeping earlier
equal-keyed elements first (stability). -/
def insertByDesc {α : Type} (key : α → ℚ) (x : α) : List α → List α
  | [] => [x]
  | y :: ys => if key x < key y then y :: insertByDesc key x ys else x :: y :: ys

/-- Stable sort, descending by `key`: models Python
`sorted(l, key=key, reverse=True)` (which is stable). -/
def sortByDesc {α : Type} (key : α → ℚ) : List α → List α
  | [] => []
  | x :: xs => insertByDesc key x (sortByDesc key xs)

/-- Python `round(x, 3)`: round to 3 decimal places, i.e.
`round(1000·q)/1000`. Computed on the numerator/denominator so that it
evaluates by kernel reduction; `round3_eq_round` below shows it equals
`⌊1000·q + 1/2⌋ / 1000`. (Python uses round-half-even on the underlying
float; the rounding mode is irrelevant to the claims, which only need
monotonicity and identity on already-rounded values.) -/
def round3 (q : ℚ) : ℚ := mkRat ((2000 * q.num + q.den) / (2 * (q.den : ℤ))) 1000

/-- The preview computation of `dedupe_sources`:
`preview = data["content"][:200].strip()`, then `preview += "..."` when
`len(data["content"]) > 200`. -/
def mkPreview (content : String) : String :=
  let p := stripStr (takeStr content 200)
  if 200 < content.data.length then p ++ "..." else p

/-- `dedupe_sources(chunks)` from app/utils/helpers.py: build `source_map`
keeping the highest-scoring chunk per filename, then emit entries sorted by
(full-precision) score descending, with rounded score and content preview. -/
def dedupe_sources (chunks : List Chunk) : List Source :=
  (sortByDesc (fun e => e.2.1) (sourceMap chunks)).map
    (fun e => ⟨e.1, round3 e.2.1, mkPreview e.2.2⟩)

/-- Feeding a `dedupe_sources` output row back into `dedupe_sources`:
the row is a dict with keys `filename`, `score`, `preview`, so
`chunk.get("content", "")` yields the empty string. -/
def sourceAsChunk (s : Source) : Chunk := ⟨s.filename, s.score, ""⟩

/-! ### Chunker: `simple_chunks` from app/text_extraction.py

Text is modelled as `List Char`; Python string slicing, `rfind`, `strip`
and `split` are spelled out below over character lists. -/

/-- Python `line.split()`: split on runs of whitespace, dropping empty
pieces. `acc` holds the current word, reversed. -/
def wordsAux : List Char → List Char → List (List Char)
  | [], acc => if acc = [] then [] else [acc.reverse]
  | c :: cs, acc =>
      if c.isWhitespace then
        if acc = [] then wordsAux cs [] else acc.reverse :: wordsAux cs []
      else
        wordsAux cs (c :: acc)

/-- Python `line.split()` (no separator argument). -/
def words (l : List Char) : List (List Char) := wordsAux l []

/-- The whitespace normalization at the top of `simple_chunks`:
`'\n'.join(' '.join(line.split()) for line in text.split('\n'))`. -/
def normalizeText (t : List Char) : List Char :=
  List.intercalate ['\n'] ((t.splitOn '\n').map (fun line => List.intercalate [' '] (words line)))

/-- Does `sub` occur in `t` starting at position `p`? -/
def matchesAt (t sub : List Char) (p : Nat) : Bool := sub.isPrefixOf (t.drop p)

/-- Downward scan for Python `text.rfind(sub, lo, hi)`: the largest
`p ≤ fuel` with `lo ≤ p`, `p + len(sub) ≤ hi` and a match at `p`. -/
def rfindDown (t sub : List Char) (lo hi : Nat) : Nat → Option Nat
  | 0 =>
      if lo = 0 ∧ sub.length ≤ hi ∧ matchesAt t sub 0 then some 0 else none
  | p + 1 =>
      if lo ≤ p + 1 ∧ p + 1 + sub.length ≤ hi ∧ matchesAt t sub (p + 1) then some (p + 1)
      else rfindDown t sub lo hi p

/-- Python `text.rfind(sub, lo, hi)`; `none` models the return value `-1`. -/
def rfind (t sub : List Char) (lo hi : Nat) : Option Nat := rfindDown t sub lo hi hi

/-- The word-boundary fallback of the cut-point search:
`k = text.rfind(' ', i, j); if k == -1 or j - k > 180: k = j`. -/
def spaceCut (t : List Char) (i j : Nat) : Nat :=
  match rfind t [' '] i j with
  | none => j
  | some k => if 180 < j - k then j else k

/-- The cut-point search of `simple_chunks`: paragraph break, then single
newline, then sentence end within 180 chars of the window edge, then word
boundary, else the window edge itself. -/
def cutPoint (t : List Char) (i j : Nat) : Nat :=
  match rfind t ['\n', '\n'] i j with
  | some k => k + 2
  | none =>
    match rfind t ['\n'] i j with
    | some k => k + 1
    | none =>
      match rfind t ['.', ' '] i j with
      | some k => if j - k ≤ 180 then k + 2 else spaceCut t i j
      | none => spaceCut t i j

/-- Python `text[a:b]` on a character list (for `a ≤ b`; empty otherwise,
as in Python). -/
def sliceL (l : List Char) (a b : Nat) : List Char := (l.drop a).take (b - a)

/-- The update `i = max(k - overlap, i + 1)` at the bottom of the
`simple_chunks` loop, with `k` the cut point for window `[i, min(i+target, n))`.
This is the scan position of the next iteration. -/
def nextScanPos (t : List Char) (target overlap i : Nat) : Nat :=
  max (cutPoint t i (min (i + target) t.length) - overlap) (i + 1)

/-- The `while i < n` loop of `simple_chunks`. Termination: the next scan
position is at least `i + 1`. -/
def chunkLoop (t : List Char) (target overlap : Nat) (i : Nat) : List (List Char) :=
  if _h : i < t.length then
    let n := t.length
    let j := min (i + target) n
    if n ≤ j + overlap then
      [stripChars (t.drop i)]
    else
      let k := cutPoint t i j
      let c := stripChars (sliceL t i k)
      let rest := chunkLoop t target overlap (nextScanPos t target overlap i)
      if c = [] then rest else c :: rest
  else []
termination_by t.length - i
decreasing_by
  have hle : i + 1 ≤ nextScanPos t target overlap i := le_max_right _ _
  omega

/-- `simple_chunks(text, target_chars, overlap)` from app/text_extraction.py,
with the generator's yields collected into a list. -/
def simple_chunks (t : List Char) (target overlap : Nat) : List (List Char) :=
  let t := normalizeText t
  if t.length ≤ target then [t] else chunkLoop t target overlap 0

/-! ### Intent classifier: `_classify_question_intent` from
app/services/rag_service.py

The provider call is a black box that either returns the accumulated
response text or raises; `Except.error` models a raised exception, caught
by the `except Exception` handler. -/

/-- `_classify_question_intent`, as a function of the provider outcome:
trim and lowercase the accumulated response; return it when it is exactly
one of the three category tokens, otherwise (including on any provider
exception) return factual. -/
def classifyIntent (providerResult : Except String String) : String :=
  match providerResult with
  | Except.error _ => "factual"
  | Except.ok response =>
      let intent := lowerStr (stripStr response)
      if intent = "greeting" ∨ intent = "help" ∨ intent = "factual" then intent
      else "factual"

/-! ### Model resolution: `resolve_model` from app/services/model_service.py -/

/-- Python `s.replace(pat, rep)`: replace every non-overlapping occurrence
of `pat`, scanning left to right, one fuel unit per step. (For an empty
`pat` the call sites never arise; this model leaves the string
unchanged.) -/
def replaceAllAux (pat rep : List Char) : Nat → List Char → List Char
  | 0, l => l
  | _, [] => []
  | fuel + 1, c :: cs =>
      if pat ≠ [] ∧ pat.isPrefixOf (c :: cs) then
        rep ++ replaceAllAux pat rep fuel ((c :: cs).drop pat.length)
      else
        c :: replaceAllAux pat rep fuel cs

/-- Python `s.replace(pat, rep)`, with the scan fuelled by the string
length (one character is consumed per step at minimum, so the fuel never
runs out). -/
def replaceAllL (pat rep : List Char) (l : List Char) : List Char :=
  replaceAllAux pat rep l.length l

/-- Python `pat in s` for strings: does `pat` occur as a contiguous
substring of `s`? -/
def containsSub (pat : List Char) : List Char → Bool
  | [] => pat.isEmpty
  | c :: cs => pat.isPrefixOf (c :: cs) || containsSub pat cs

/-- The `"openai:"` literal of `resolve_model`, as a character list. -/
def openaiTag : List Char := ['o', 'p', 'e', 'n', 'a', 'i', ':']

/-- The `"ollama:"` literal of `resolve_model`, as a character list. -/
def ollamaTag : List Char := ['o', 'l', 'l', 'a', 'm', 'a', ':']

/-- `resolve_model(model_string)` from app/services/model_service.py.
`defaultModel` is `MODEL` from app/openai_client.py (env-configured,
defaulting to "gpt-4o-mini"). `none` models a `None` argument; Python
`if not model_string` is also true for the empty string. -/
def resolveModel (defaultModel : List Char) (modelString : Option (List Char)) :
    List Char × List Char :=
  match modelString with
  | none => ("openai".toList, defaultModel)
  | some s =>
      if s = [] then ("openai".toList, defaultModel)
      else if openaiTag.isPrefixOf s then ("openai".toList, replaceAllL openaiTag [] s)
      else if ollamaTag.isPrefixOf s then ("ollama".toList, replaceAllL ollamaTag [] s)
      else ("openai".toList, defaultModel)

/-! ### Retrieval gate and orchestration: `handle_rag_query` from
app/services/rag_service.py -/

/-- Steps 7–8 of `handle_rag_query`:
`strong_chunks = [c for c in chunks if c["score"] >= min_score]`, and if
that is empty while `chunks` is not, `strong_chunks = chunks[:2]`. -/
def strongChunks (chunks : List Chunk) (minScore : ℚ) : List Chunk :=
  let strong := chunks.filter (fun c => minScore ≤ c.score)
  if strong.isEmpty ∧ ¬chunks.isEmpty then chunks.take 2 else strong

/-- `_build_context(chunks)`: 800-char truncation, 1-based `[i]` markers,
joined by blank line / dash rule / blank line. -/
def buildContext (chunks : List Chunk) : String :=
  String.intercalate "\n\n---\n\n"
    (chunks.enum.map (fun e => "[" ++ toString (e.1 + 1) ++ "] " ++ takeStr e.2.content 800))

/-- The four response paths of `handle_rag_query` (the states after
CLASSIFY in the orchestrator state machine). -/
inductive RagPath where
  | noDocs
  | greeting
  | notFound
  | answer (contextChunks : List Chunk) (sources : List Source) (context : String)
deriving DecidableEq

/-- The path selection and answer assembly of `handle_rag_query`, as a
function of the classified intent, whether any documents exist, the raw
ranked candidate list returned by `search_similar`, and `min_score`.
Mirrors steps 4–9 of the Python function: no-documents check first (only
for non-greeting intents), then greeting/help, then the gate, then
sort-descending/take-5, the 0.30 citation filter, dedupe and context
build. -/
def ragDecision (intent : String) (hasDocs : Bool) (chunks : List Chunk) (minScore : ℚ) :
    RagPath :=
  let isGreetingOrHelp := intent = "greeting" ∨ intent = "help"
  if ¬hasDocs ∧ ¬isGreetingOrHelp then RagPath.noDocs
  else if isGreetingOrHelp then RagPath.greeting
  else
    let strong := strongChunks chunks minScore
    if strong.isEmpty then RagPath.notFound
    else
      let sorted := (sortByDesc (fun c => c.score) strong).take 5
      let relevant := sorted.filter (fun c => mkRat 3 10 ≤ c.score)
      RagPath.answer sorted (dedupe_sources relevant) (buildContext sorted)

/-! ### Wire events: the `_stream_*` generators of app/services/rag_service.py -/

/-- One server-sent event. The `final` event carries the fields written by
the Python code (`text`, `grounded`, `sources`, `model_provider`,
`model_name`, `conversation_id`, `timestamp`). -/
inductive SEvent where
  | meta (sources : List Source)
  | delta (text : String)
  | final (text : String) (grounded : Bool) (sources : List Source)
      (provider modelName : String) (conversationId : Nat) (timestamp : Option String)
  | done
deriving DecidableEq

/-- The fixed message of `_stream_no_documents_response`. -/
def noDocsMessage : String :=
  "Please upload documents first before asking questions. Go to the 'Documents' tab to upload PDF, DOCX, or TXT files."

/-- The fixed message of `_stream_not_found_response`. -/
def notFoundMessage : String :=
  "I don't have information about that in the uploaded documents. Try asking a more specific question, or upload relevant documents first."

/-- `_stream_no_documents_response`: meta with empty sources, the fixed
message as final, done — no delta events, no generation call. -/
def streamNoDocsEvents (provider modelName : String) (cid : Nat) (ts : Option String) :
    List SEvent :=
  [SEvent.meta [], SEvent.final noDocsMessage false [] provider modelName cid ts, SEvent.done]

/-- `_stream_not_found_response`: meta with empty sources, the fixed
message as final, done — no delta events, no generation call. -/
def streamNotFoundEvents (provider modelName : String) (cid : Nat) (ts : Option String) :
    List SEvent :=
  [SEvent.meta [], SEvent.final notFoundMessage false [] provider modelName cid ts, SEvent.done]

/-- `_stream_greeting_response`, as a function of the provider's delta
fragments: meta with empty sources, one delta per fragment, a final event
whose text is the accumulated `full_response`, then done. -/
def streamGreetingEvents (deltas : List String) (provider modelName : String) (cid : Nat)
    (ts : Option String) : List SEvent :=
  SEvent.meta [] :: deltas.map SEvent.delta
    ++ [SEvent.final (String.join deltas) false [] provider modelName cid ts, SEvent.done]

/-- `_stream_rag_response`, as a function of the provider's delta
fragments: meta with the gated sources, one delta per fragment, a final
event whose text is `full_response.strip()` (the same stripped text is
persisted), then done. -/
def streamRagEvents (deltas : List String) (sources : List Source)
    (provider modelName : String) (cid : Nat) (ts : Option String) : List SEvent :=
  SEvent.meta sources :: deltas.map SEvent.delta
    ++ [SEvent.final (stripStr (String.join deltas)) true sources provider modelName cid ts,
        SEvent.done]

/-- The `text` fields of the delta events of a stream, in emission order. -/
def deltaTexts (evs : List SEvent) : List String :=
  evs.filterMap (fun e => match e with | SEvent.delta t => some t | _ => none)

/-- The `text` fields of the final events of a stream. -/
def finalTexts (evs : List SEvent) : List String :=
  evs.filterMap (fun e => match e with
    | SEvent.final t _ _ _ _ _ _ => some t
    | _ => none)

/-- The event stream emitted on each path, given the generation provider's
fragment list (consulted only on the two generating paths). -/
def ragPathEvents (p : RagPath) (gen : List String) (provider modelName : String)
    (cid : Nat) (ts : Option String) : List SEvent :=
  match p with
  | RagPath.noDocs => streamNoDocsEvents provider modelName cid ts
  | RagPath.notFound => streamNotFoundEvents provider modelName cid ts
  | RagPath.greeting => streamGreetingEvents gen provider modelName cid ts
  | RagPath.answer _ sources _ => streamRagEvents gen sources provider modelName cid ts

/-! ### Conversation persistence ordering: steps 1–4 of `handle_rag_query` -/

/-- The externally stored conversation state: conversation ids and
(conversation id, role, content) message rows, in creation order. -/
structure DBState where
  conversations : List Nat
  messages : List (Nat × String × String)
deriving DecidableEq

/-- `create_conversation()`: insert a new conversation row and return its
fresh id (modelled as one greater than every existing id). -/
def create_conversation (st : DBState) : Nat × DBState :=
  let cid := st.conversations.foldr (fun a b => max a b) 0 + 1
  (cid, { st with conversations := st.conversations ++ [cid] })

/-- `store_message(conversation_id, role, content)`: append one message row. -/
def store_message (st : DBState) (cid : Nat) (role content : String) : DBState :=
  { st with messages := st.messages ++ [(cid, role, content)] }

/-- Steps 1–4 of `handle_rag_query` threaded through the store: create a
conversation when `chat_id` is `None`, store the stripped user question,
then run the rest of the pipeline (classification, retrieval, generation,
assistant-message persistence), which may fail. `pipeline` returns the
store state at its end together with `some error` when it raised; the
side effects already performed persist either way (the store is external,
nothing is rolled back). Returns (final state, pipeline error, chat id). -/
def handleRagQueryState (st : DBState) (chatId : Option Nat) (question : String)
    (pipeline : Nat → DBState → DBState × Option String) :
    DBState × Option String × Nat :=
  let r := match chatId with
    | none => create_conversation st
    | some c => (c, st)
  let st2 := store_message r.2 r.1 "user" (stripStr question)
  let r2 := pipeline r.1 st2
  (r2.1, r2.2, r.1)

/-! ## Helper lemmas -/

theorem insertByDesc_perm {α : Type} (key : α → ℚ) (x : α) (l : List α) :
    List.Perm (insertByDesc key x l) (x :: l) := by
  induction l with
  | nil => simp [insertByDesc]
  | cons y ys ih =>
      simp only [insertByDesc]
      split
      · exact List.Perm.trans (List.Perm.cons y ih) (List.Perm.swap x y ys)
      · exact List.Perm.refl _

theorem sortByDesc_perm {α : Type} (key : α → ℚ) (l : List α) :
    List.Perm (sortByDesc key l) l := by
  induction l with
  | nil => simp [sortByDesc]
  | cons x xs ih =>
      exact List.Perm.trans (insertByDesc_perm key x (sortByDesc key xs)) (List.Perm.cons x ih)

theorem insertByDesc_pairwise {α : Type} (key : α → ℚ) (x : α) (l : List α)
    (h : l.Pairwise (fun a b => key b ≤ key a)) :
    (insertByDesc key x l).Pairwise (fun a b => key b ≤ key a) := by
  induction l with
  | nil => simp [insertByDesc]
  | cons y ys ih =>
      simp only [insertByDesc]
      rcases List.pairwise_cons.mp h with ⟨hy, hys⟩
      split
      · rename_i hlt
        refine List.pairwise_cons.mpr ⟨?_, ih hys⟩
        intro b hb
        have hb2 : b ∈ x :: ys := (insertByDesc_perm key x ys).mem_iff.mp hb
        rcases List.mem_cons.mp hb2 with hb3 | hb3
        · subst hb3; exact le_of_lt hlt
        · exact hy b hb3
      · rename_i hnlt
        refine List.pairwise_cons.mpr ⟨?_, h⟩
        intro b hb
        rcases List.mem_cons.mp hb with hb3 | hb3
        · subst hb3; exact le_of_not_lt hnlt
        · exact le_trans (hy b hb3) (le_of_not_lt hnlt)

theorem sortByDesc_pairwise {α : Type} (key : α → ℚ) (l : List α) :
    (sortByDesc key l).Pairwise (fun a b => key b ≤ key a) := by
  induction l with
  | nil => simp [sortByDesc]
  | cons x xs ih => exact insertByDesc_pairwise key x (sortByDesc key xs) ih

theorem insertByDesc_of_le {α : Type} (key : α → ℚ) (x : α) (l : List α)
    (h : ∀ y ∈ l, key y ≤ key x) : insertByDesc key x l = x :: l := by
  cases l with
  | nil => rfl
  | cons y ys =>
      simp only [insertByDesc]
      have : ¬ key x < key y := not_lt_of_le (h y (by simp))
      simp [this]

theorem sortByDesc_of_pairwise {α : Type} (key : α → ℚ) (l : List α)
    (h : l.Pairwise (fun a b => key b ≤ key a)) : sortByDesc key l = l := by
  induction l with
  | nil => rfl
  | cons x xs ih =>
      rcases List.pairwise_cons.mp h with ⟨hx, hxs⟩
      simp only [sortByDesc]
      rw [ih hxs]
      exact insertByDesc_of_le key x xs hx

theorem deltaTexts_map_delta (l : List String) :
    deltaTexts (l.map SEvent.delta) = l := by
  induction l with
  | nil => rfl
  | cons t ts ih => simpa [deltaTexts, List.filterMap_cons] using ih

theorem deltaTexts_append (l₁ l₂ : List SEvent) :
    deltaTexts (l₁ ++ l₂) = deltaTexts l₁ ++ deltaTexts l₂ := by
  simp [deltaTexts, List.filterMap_append]

theorem finalTexts_map_delta (l : List String) :
    finalTexts (l.map SEvent.delta) = [] := by
  induction l with
  | nil => rfl
  | cons t ts ih => simp [finalTexts, List.filterMap_cons]

theorem finalTexts_append (l₁ l₂ : List SEvent) :
    finalTexts (l₁ ++ l₂) = finalTexts l₁ ++ finalTexts l₂ := by
  simp [finalTexts, List.filterMap_append]

theorem deltaTexts_cons_meta (s : List Source) (evs : List SEvent) :
    deltaTexts (SEvent.meta s :: evs) = deltaTexts evs := by
  simp [deltaTexts, List.filterMap_cons]

theorem finalTexts_cons_meta (s : List Source) (evs : List SEvent) :
    finalTexts (SEvent.meta s :: evs) = finalTexts evs := by
  simp [finalTexts, List.filterMap_cons]

theorem deltaTexts_final_done (t : String) (g : Bool) (s : List Source)
    (pv mn : String) (cid : Nat) (ts : Option String) :
    deltaTexts [SEvent.final t g s pv mn cid ts, SEvent.done] = [] := rfl

theorem finalTexts_final_done (t : String) (g : Bool) (s : List Source)
    (pv mn : String) (cid : Nat) (ts : Option String) :
    finalTexts [SEvent.final t g s pv mn cid ts, SEvent.done] = [t] := rfl

/-! ## Claim theorems -/

/-- C6: for every text input and any target/overlap parameters, the scan
position of `simple_chunks` strictly increases on every loop iteration
(`nextScanPos` is the position the loop recurses on), hence the chunker
terminates and yields a finite sequence — `simple_chunks` is a total
function into lists. -/
theorem simple_chunks_progress (t : List Char) (target overlap i : Nat) :
    i < nextScanPos t target overlap i :=
  lt_of_lt_of_le (Nat.lt_succ_self i) (le_max_right _ _)

/-- C2: the intent classifier returns the category itself exactly when the
trimmed, lowercased provider response equals one of the three tokens,
returns factual for every other response, returns factual whenever the
provider call raises, and always returns one of the three tokens (it never
propagates an exception — it is a total function of the provider outcome). -/
theorem classify_intent_spec (r : Except String String) :
    (∀ s, r = Except.ok s → lowerStr (stripStr s) = "greeting" → classifyIntent r = "greeting")
  ∧ (∀ s, r = Except.ok s → lowerStr (stripStr s) = "help" → classifyIntent r = "help")
  ∧ (∀ s, r = Except.ok s → lowerStr (stripStr s) = "factual" → classifyIntent r = "factual")
  ∧ (∀ s, r = Except.ok s → lowerStr (stripStr s) ≠ "greeting" → lowerStr (stripStr s) ≠ "help" →
      lowerStr (stripStr s) ≠ "factual" → classifyIntent r = "factual")
  ∧ (∀ e, r = Except.error e → classifyIntent r = "factual")
  ∧ (classifyIntent r = "greeting" ∨ classifyIntent r = "help" ∨ classifyIntent r = "factual") := by
  refine ⟨?_, ?_, ?_, ?_, ?_, ?_⟩
  · rintro s rfl h; simp [classifyIntent, h]
  · rintro s rfl h; simp [classifyIntent, h]
  · rintro s rfl h; simp [classifyIntent, h]
  · rintro s rfl h1 h2 h3; simp [classifyIntent, h1, h2, h3]
  · rintro e rfl; rfl
  · cases r with
    | error e => simp [classifyIntent]
    | ok s =>
        simp only [classifyIntent]
        split
        · rename_i h; rcases h with h | h | h <;> simp [h]
        · simp

/-- C2 witness: a response of `"  GREETING "` classifies as greeting, and a
provider exception classifies as factual. -/
theorem classify_intent_spec_witness :
    classifyIntent (Except.ok "  GREETING ") = "greeting"
  ∧ classifyIntent (Except.error "connection timeout") = "factual" :=
  ⟨(classify_intent_spec (Except.ok "  GREETING ")).1 _ rfl (by decide),
   (classify_intent_spec (Except.error "connection timeout")).2.2.2.2.1 _ rfl⟩

/-- C7 counterexample: for empty input, `simple_chunks` yields a single
empty chunk (the `n <= target_chars` branch yields the whole normalized
text with no emptiness guard), so the yielded sequence is not empty and
contains an empty string — contrary to the claim. -/
theorem simple_chunks_empty_input_counterexample :
    simple_chunks ([] : List Char) 1200 150 = [[]]
  ∧ ([] : List Char) ∈ simple_chunks ([] : List Char) 1200 150
  ∧ simple_chunks ([] : List Char) 1200 150 ≠ [] := by decide

/-- C7 amended: for empty or whitespace-only input (normalization yields
the empty text), `simple_chunks` yields exactly one chunk, the empty
string — not the empty sequence, and the yielded chunk is not non-empty. -/
theorem simple_chunks_whitespace_amended (t : List Char) (target overlap : Nat)
    (h : normalizeText t = []) :
    simple_chunks t target overlap = [[]] := by
  simp [simple_chunks, h]

/-- C7 amended witness: the whitespace-only input `" "` normalizes to the
empty text and yields exactly one empty chunk. -/
theorem simple_chunks_whitespace_amended_witness :
    simple_chunks ([' '] : List Char) 1200 150 = [[]] :=
  simple_chunks_whitespace_amended [' '] 1200 150 (by decide)

theorem prefixOf_append_self (l t : List Char) : l.isPrefixOf (l ++ t) = true := by
  induction l with
  | nil => simp [List.isPrefixOf]
  | cons a as ih => simp [List.isPrefixOf, ih]

theorem replaceAllAux_no_occurrence (pat rep : List Char) :
    ∀ (fuel : Nat) (s : List Char), containsSub pat s = false →
      replaceAllAux pat rep fuel s = s := by
  intro fuel s
  induction s generalizing fuel with
  | nil => intro _; cases fuel <;> rfl
  | cons c cs ih =>
      intro h
      simp only [containsSub, Bool.or_eq_false_iff] at h
      cases fuel with
      | zero => rfl
      | succ fuel =>
          have hno : ¬ (pat ≠ [] ∧ pat.isPrefixOf (c :: cs) = true) := by
            rintro ⟨-, hpre⟩
            rw [h.1] at hpre
            exact Bool.false_ne_true hpre
          simp only [replaceAllAux]
          rw [if_neg hno, ih fuel h.2]

theorem replaceAllL_strip_tag (p : Char) (ps name : List Char)
    (h : containsSub (p :: ps) name = false) :
    replaceAllL (p :: ps) [] ((p :: ps) ++ name) = name := by
  show replaceAllAux (p :: ps) [] ((p :: ps) ++ name).length ((p :: ps) ++ name) = name
  have hlen : ((p :: ps) ++ name).length = (ps.length + name.length) + 1 := by
    simp [List.length_append]
  rw [hlen]
  show replaceAllAux (p :: ps) [] ((ps.length + name.length) + 1) (p :: (ps ++ name)) = name
  simp only [replaceAllAux]
  rw [if_pos]
  · have hdrop : (p :: (ps ++ name)).drop (p :: ps).length = name := by
      have h2 := List.drop_left (p :: ps) name
      simp at h2
      simp [h2]
    rw [hdrop, List.nil_append]
    exact replaceAllAux_no_occurrence _ _ _ _ h
  · exact ⟨by simp, by
      have h3 := prefixOf_append_self (p :: ps) name
      simp at h3
      simp [h3]⟩

/-- C8 counterexample: `resolve_model` removes every occurrence of the
provider tag, not just the leading one — for `"openai:openai:x"` (which has
the form `openai:<name>` with `<name> = "openai:x"`) it returns model name
`"x"`, not `"openai:x"`. -/
theorem resolve_model_counterexample :
    resolveModel "gpt-4o-mini".toList (some "openai:openai:x".toList)
      = ("openai".toList, "x".toList)
  ∧ "x".toList ≠ "openai:x".toList := by decide

/-- C8 amended: `resolve_model` strips the provider tag by replacing every
occurrence of `"<provider>:"`; the model name passes through unchanged
exactly when it does not itself contain the provider tag as a substring
(names containing other colons, such as versioned tags, are unaffected).
Absent, empty, or unrecognized-prefix identifiers resolve to the default
provider/model pair. -/
theorem resolve_model_amended (defaultModel : List Char) :
    (∀ name, containsSub openaiTag name = false →
        resolveModel defaultModel (some (openaiTag ++ name)) = ("openai".toList, name))
  ∧ (∀ name, containsSub ollamaTag name = false →
        resolveModel defaultModel (some (ollamaTag ++ name)) = ("ollama".toList, name))
  ∧ resolveModel defaultModel none = ("openai".toList, defaultModel)
  ∧ resolveModel defaultModel (some []) = ("openai".toList, defaultModel)
  ∧ (∀ s, openaiTag.isPrefixOf s = false → ollamaTag.isPrefixOf s = false →
        resolveModel defaultModel (some s) = ("openai".toList, defaultModel)) := by
  refine ⟨?_, ?_, rfl, rfl, ?_⟩
  · intro name h
    have hne : openaiTag ++ name ≠ [] := by simp [openaiTag]
    have hpre : openaiTag.isPrefixOf (openaiTag ++ name) = true := prefixOf_append_self _ _
    have hrepl : replaceAllL openaiTag [] (openaiTag ++ name) = name :=
      replaceAllL_strip_tag 'o' ['p', 'e', 'n', 'a', 'i', ':'] name h
    simp only [resolveModel, if_neg hne, hpre, if_pos, if_true, hrepl]
  · intro name h
    have hne : ollamaTag ++ name ≠ [] := by simp [ollamaTag]
    have hpre1 : openaiTag.isPrefixOf (ollamaTag ++ name) = false := rfl
    have hpre2 : ollamaTag.isPrefixOf (ollamaTag ++ name) = true := prefixOf_append_self _ _
    have hrepl : replaceAllL ollamaTag [] (ollamaTag ++ name) = name :=
      replaceAllL_strip_tag 'o' ['l', 'l', 'a', 'm', 'a', ':'] name h
    simp only [resolveModel, if_neg hne, hpre1, hpre2, if_pos, if_true, hrepl]
    simp
  · intro s h1 h2
    by_cases hs : s = []
    · simp [resolveModel, hs]
    · simp [resolveModel, hs, h1, h2]

/-- C8 amended witness: the docstring example `"ollama:qwen2.5:7b"`, whose
model name contains a colon but not the provider tag, resolves with the
name unchanged. -/
theorem resolve_model_amended_witness :
    resolveModel "gpt-4o-mini".toList (some "ollama:qwen2.5:7b".toList)
      = ("ollama".toList, "qwen2.5:7b".toList) := by
  have h := (resolve_model_amended "gpt-4o-mini".toList).2.1 "qwen2.5:7b".toList (by decide)
  have he : ollamaTag ++ "qwen2.5:7b".toList = "ollama:qwen2.5:7b".toList := by decide
  rw [he] at h
  exact h

/-- C9 counterexample: on ANSWER_PATH the final event's text is the
stripped accumulation, so when the provider's fragments end in whitespace
the concatenation of the delta texts differs from the final text. -/
theorem stream_final_text_counterexample :
    deltaTexts (streamRagEvents ["hello "] [] "openai" "gpt-4o-mini" 1 none) = ["hello "]
  ∧ finalTexts (streamRagEvents ["hello "] [] "openai" "gpt-4o-mini" 1 none) = ["hello"]
  ∧ String.join ["hello "] ≠ "hello" := by decide

/-- C9 amended: delta texts concatenate (in emission order) to the final
event's text exactly on GREETING_PATH; on ANSWER_PATH the final text is the
stripped concatenation; the no-documents and not-found paths emit no delta
events. -/
theorem stream_delta_concat_amended (deltas : List String) (sources : List Source)
    (provider modelName : String) (cid : Nat) (ts : Option String) :
    deltaTexts (streamGreetingEvents deltas provider modelName cid ts) = deltas
  ∧ finalTexts (streamGreetingEvents deltas provider modelName cid ts) = [String.join deltas]
  ∧ deltaTexts (streamRagEvents deltas sources provider modelName cid ts) = deltas
  ∧ finalTexts (streamRagEvents deltas sources provider modelName cid ts)
      = [stripStr (String.join deltas)]
  ∧ deltaTexts (streamNoDocsEvents provider modelName cid ts) = []
  ∧ deltaTexts (streamNotFoundEvents provider modelName cid ts) = [] := by
  refine ⟨?_, ?_, ?_, ?_, rfl, rfl⟩
  · simp only [streamGreetingEvents, deltaTexts_cons_meta, deltaTexts_append,
      deltaTexts_map_delta, deltaTexts_final_done, List.append_nil]
  · simp only [streamGreetingEvents, finalTexts_cons_meta, finalTexts_append,
      finalTexts_map_delta, finalTexts_final_done, List.nil_append]
  · simp only [streamRagEvents, deltaTexts_cons_meta, deltaTexts_append,
      deltaTexts_map_delta, deltaTexts_final_done, List.append_nil]
  · simp only [streamRagEvents, finalTexts_cons_meta, finalTexts_append,
      finalTexts_map_delta, finalTexts_final_done, List.nil_append]

/-- C1: when the raw candidate list returned by retrieval is empty, the
gate yields the not-found path, whose response is the fixed message,
independent of any generation fragments (no generation call), with no
delta events; when the raw list is non-empty but no candidate reaches
`min_score`, the gated set is exactly the first two candidates of the
ranked raw list (`chunks[:2]`). -/
theorem gate_empty_and_fallback (chunks : List Chunk) (minScore : ℚ)
    (provider modelName : String) (cid : Nat) (ts : Option String) :
    (chunks = [] → ragDecision "factual" true chunks minScore = RagPath.notFound)
  ∧ (∀ gen gen', ragPathEvents RagPath.notFound gen provider modelName cid ts
        = ragPathEvents RagPath.notFound gen' provider modelName cid ts)
  ∧ deltaTexts (ragPathEvents RagPath.notFound [] provider modelName cid ts) = []
  ∧ finalTexts (ragPathEvents RagPath.notFound [] provider modelName cid ts) = [notFoundMessage]
  ∧ (chunks ≠ [] → (∀ c ∈ chunks, c.score < minScore) →
      strongChunks chunks minScore = chunks.take 2) := by
  refine ⟨?_, fun gen gen' => rfl, rfl, rfl, ?_⟩
  · rintro rfl
    simp [ragDecision, strongChunks]
  · intro hne hall
    have hfil : chunks.filter (fun c => decide (minScore ≤ c.score)) = [] := by
      rw [List.filter_eq_nil_iff]
      intro c hc
      simp only [decide_eq_true_eq, not_le]
      exact hall c hc
    simp [strongChunks, hfil, hne]

/-- C1 witness: the empty candidate list yields not-found; a list of three
candidates all below `min_score = 0.15` gates to exactly its first two. -/
theorem gate_empty_and_fallback_witness :
    ragDecision "factual" true [] (mkRat 15 100) = RagPath.notFound
  ∧ strongChunks
      [⟨"a", mkRat 1 10, "x"⟩, ⟨"b", mkRat 1 20, "y"⟩, ⟨"c", mkRat 1 30, "z"⟩] (mkRat 15 100)
      = [⟨"a", mkRat 1 10, "x"⟩, ⟨"b", mkRat 1 20, "y"⟩] := by
  constructor
  · exact (gate_empty_and_fallback [] (mkRat 15 100) "openai" "gpt-4o-mini" 1 none).1 rfl
  · have h := (gate_empty_and_fallback
      [⟨"a", mkRat 1 10, "x"⟩, ⟨"b", mkRat 1 20, "y"⟩, ⟨"c", mkRat 1 30, "z"⟩] (mkRat 15 100)
      "openai" "gpt-4o-mini" 1 none).2.2.2.2 (by decide) (by decide)
    rw [h]
    rfl

/-- C10: `handle_rag_query` creates the conversation (when no chat id was
supplied) and stores the user message before classification, retrieval and
generation run; if the rest of the pipeline fails (returns an error) after
performing only appends, the stored user message and the new conversation
remain in the final store state — the pipeline is not atomic with respect
to conversation state. -/
theorem handle_rag_query_persists_user_turn (st : DBState) (chatId : Option Nat)
    (q : String) (pipeline : Nat → DBState → DBState × Option String)
    (hmsgs : ∀ cid s, ∃ extra, (pipeline cid s).1.messages = s.messages ++ extra)
    (hconvs : ∀ cid s, ∃ extra, (pipeline cid s).1.conversations = s.conversations ++ extra) :
    ((handleRagQueryState st chatId q pipeline).2.2, "user", stripStr q)
        ∈ (handleRagQueryState st chatId q pipeline).1.messages
  ∧ (chatId = none →
      (handleRagQueryState st chatId q pipeline).2.2
        ∈ (handleRagQueryState st chatId q pipeline).1.conversations) := by
  cases chatId with
  | none =>
      simp only [handleRagQueryState]
      obtain ⟨e1, he1⟩ := hmsgs (create_conversation st).1
        (store_message (create_conversation st).2 (create_conversation st).1 "user" (stripStr q))
      obtain ⟨e2, he2⟩ := hconvs (create_conversation st).1
        (store_message (create_conversation st).2 (create_conversation st).1 "user" (stripStr q))
      refine ⟨?_, fun _ => ?_⟩
      · rw [he1]
        simp [store_message]
      · rw [he2]
        simp [store_message, create_conversation]
  | some c =>
      simp only [handleRagQueryState]
      obtain ⟨e1, he1⟩ := hmsgs c (store_message st c "user" (stripStr q))
      refine ⟨?_, fun hc => by cases hc⟩
      rw [he1]
      simp [store_message]

/-- C10 witness: with an empty store, no chat id, and a pipeline that
fails immediately after the user turn is stored, the user message and the
new conversation are still present while the pipeline reports its error. -/
theorem handle_rag_query_persists_user_turn_witness :
    ((handleRagQueryState ⟨[], []⟩ none "hi" (fun _ s => (s, some "boom"))).2.2, "user",
        stripStr "hi")
      ∈ (handleRagQueryState ⟨[], []⟩ none "hi" (fun _ s => (s, some "boom"))).1.messages
  ∧ (handleRagQueryState ⟨[], []⟩ none "hi" (fun _ s => (s, some "boom"))).1.conversations = [1]
  ∧ (handleRagQueryState ⟨[], []⟩ none "hi" (fun _ s => (s, some "boom"))).2.1 = some "boom" := by
  refine ⟨(handle_rag_query_persists_user_turn ⟨[], []⟩ none "hi"
      (fun _ s => (s, some "boom")) ?_ ?_).1, by decide, rfl⟩
  · intro cid s; exact ⟨[], by simp⟩
  · intro cid s; exact ⟨[], by simp⟩

/-! ## Lemmas about `round3` -/

theorem round3_eq_round (q : ℚ) :
    round3 q = ((round (q * 1000) : ℤ) : ℚ) / 1000 := by
  have hden : ((q.den : ℚ)) ≠ 0 := by
    have h0 := q.den_pos
    positivity
  have hnum2 : (q.num : ℚ) = q * (q.den : ℚ) := by
    have h := Rat.num_div_den q
    rw [div_eq_iff hden] at h
    exact h
  have hkey : q * 1000 + 1 / 2
      = ((2000 * q.num + (q.den : ℤ) : ℤ) : ℚ) / (((2 * q.den : ℕ) : ℤ) : ℚ) := by
    push_cast
    field_simp
    rw [hnum2]
    ring
  have hfloor : ⌊q * 1000 + 1 / 2⌋ = (2000 * q.num + (q.den : ℤ)) / ((2 * q.den : ℕ) : ℤ) := by
    rw [hkey]
    exact_mod_cast Rat.floor_intCast_div_natCast (2000 * q.num + (q.den : ℤ)) (2 * q.den)
  have hnum : (2000 * q.num + (q.den : ℤ)) / (2 * (q.den : ℤ))
      = (2000 * q.num + (q.den : ℤ)) / ((2 * q.den : ℕ) : ℤ) := by
    push_cast
    ring_nf
  unfold round3
  rw [Rat.mkRat_eq_div, round_eq, hfloor, hnum]
  norm_cast

theorem round3_mono {a b : ℚ} (h : a ≤ b) : round3 a ≤ round3 b := by
  rw [round3_eq_round, round3_eq_round]
  have h1 : round (a * 1000) ≤ round (b * 1000) := by
    rw [round_eq, round_eq]
    exact Int.floor_le_floor (by linarith)
  have h2 : ((round (a * 1000) : ℤ) : ℚ) ≤ ((round (b * 1000) : ℤ) : ℚ) := by
    exact_mod_cast h1
  linarith

theorem round3_idem (q : ℚ) : round3 (round3 q) = round3 q := by
  have hz : round3 q = ((round (q * 1000) : ℤ) : ℚ) / 1000 := round3_eq_round q
  rw [round3_eq_round (round3 q), hz]
  have hmul : (((round (q * 1000) : ℤ) : ℚ) / 1000) * 1000 = ((round (q * 1000) : ℤ) : ℚ) := by
    field_simp
  rw [hmul, round_intCast]

/-! ## Lemmas about `upsert` and `sourceMap` -/

theorem keys_upsert (f : String) (s : ℚ) (c : String) (m : List MapEntry) :
    (upsert f s c m).map Prod.fst
      = if f ∈ m.map Prod.fst then m.map Prod.fst else m.map Prod.fst ++ [f] := by
  induction m with
  | nil => simp [upsert]
  | cons e rest ih =>
      by_cases he : e.1 = f
      · have h1 : (if e.2.1 < s then (f, s, c) else e).1 = f := by
          split
          · rfl
          · exact he
        simp [upsert, he, h1]
      · simp only [upsert, if_neg he, List.map_cons, ih]
        by_cases hf : f ∈ rest.map Prod.fst
        · simp [hf, Ne.symm he]
        · simp [hf, Ne.symm he]

theorem keys_upsert_nodup (f : String) (s : ℚ) (c : String) (m : List MapEntry)
    (h : (m.map Prod.fst).Nodup) : ((upsert f s c m).map Prod.fst).Nodup := by
  rw [keys_upsert]
  by_cases hf : f ∈ m.map Prod.fst
  · simpa [hf] using h
  · simp only [if_neg hf]
    simp [List.nodup_append, h, hf]

theorem mem_upsert (f : String) (s : ℚ) (c : String) (m : List MapEntry) (e : MapEntry)
    (h : e ∈ upsert f s c m) : e ∈ m ∨ e = (f, s, c) := by
  induction m with
  | nil => simpa [upsert] using h
  | cons a rest ih =>
      by_cases ha : a.1 = f
      · simp only [upsert, if_pos ha] at h
        rcases List.mem_cons.mp h with h1 | h1
        · by_cases hlt : a.2.1 < s
          · rw [if_pos hlt] at h1; right; exact h1
          · rw [if_neg hlt] at h1; left; rw [h1]; exact List.mem_cons_self a rest
        · left; exact List.mem_cons_of_mem a h1
      · simp only [upsert, if_neg ha] at h
        rcases List.mem_cons.mp h with h1 | h1
        · left; rw [h1]; exact List.mem_cons_self a rest
        · rcases ih h1 with h2 | h2
          · left; exact List.mem_cons_of_mem a h2
          · right; exact h2

theorem upsert_key_score_ge (f : String) (s : ℚ) (c : String) (m : List MapEntry)
    (hnd : (m.map Prod.fst).Nodup) (e : MapEntry) (he : e ∈ upsert f s c m) (hf : e.1 = f) :
    s ≤ e.2.1 := by
  induction m with
  | nil =>
      simp only [upsert, List.mem_singleton] at he
      rw [he]
  | cons a rest ih =>
      rw [List.map_cons, List.nodup_cons] at hnd
      by_cases ha : a.1 = f
      · simp only [upsert, if_pos ha] at he
        rcases List.mem_cons.mp he with h1 | h1
        · by_cases hlt : a.2.1 < s
          · rw [if_pos hlt] at h1; rw [h1]
          · rw [if_neg hlt] at h1; rw [h1]; exact le_of_not_lt hlt
        · exfalso
          apply hnd.1
          rw [ha, ← hf]
          exact List.mem_map_of_mem Prod.fst h1
      · simp only [upsert, if_neg ha] at he
        rcases List.mem_cons.mp he with h1 | h1
        · exact absurd (h1 ▸ hf) ha
        · exact ih hnd.2 h1

theorem upsert_key_exists (f : String) (s : ℚ) (c : String) (m : List MapEntry) :
    ∃ e ∈ upsert f s c m, e.1 = f := by
  induction m with
  | nil => exact ⟨(f, s, c), by simp [upsert]⟩
  | cons a rest ih =>
      by_cases ha : a.1 = f
      · by_cases hlt : a.2.1 < s
        · exact ⟨(f, s, c), by simp [upsert, ha, hlt]⟩
        · exact ⟨a, by simp [upsert, ha, hlt, List.mem_cons], ha⟩
      · obtain ⟨e, hmem, hkey⟩ := ih
        exact ⟨e, by simp [upsert, ha, List.mem_cons, Or.inr hmem], hkey⟩

theorem upsert_preserves_score (f : String) (s : ℚ) (c : String) (m : List MapEntry)
    (e : MapEntry) (he : e ∈ m) :
    ∃ e2 ∈ upsert f s c m, e2.1 = e.1 ∧ e.2.1 ≤ e2.2.1 := by
  induction m with
  | nil => cases he
  | cons a rest ih =>
      by_cases ha : a.1 = f
      · rcases List.mem_cons.mp he with h1 | h1
        · by_cases hlt : a.2.1 < s
          · refine ⟨(f, s, c), by simp [upsert, ha, hlt], ?_, ?_⟩
            · rw [h1, ha]
            · rw [h1]; exact le_of_lt hlt
          · exact ⟨a, by simp [upsert, ha, hlt, List.mem_cons], by rw [h1], by rw [h1]⟩
        · refine ⟨e, ?_, rfl, le_refl _⟩
          simp [upsert, ha, List.mem_cons, Or.inr h1]
      · rcases List.mem_cons.mp he with h1 | h1
        · refine ⟨a, by simp [upsert, ha, List.mem_cons], by rw [h1], by rw [h1]⟩
        · obtain ⟨e2, hmem, hkey, hle⟩ := ih h1
          exact ⟨e2, by simp [upsert, ha, List.mem_cons, Or.inr hmem], hkey, hle⟩

theorem nodup_keys_entry_inj (m : List MapEntry) (hnd : (m.map Prod.fst).Nodup)
    (e e2 : MapEntry) (he : e ∈ m) (he2 : e2 ∈ m) (hk : e2.1 = e.1) : e2 = e := by
  induction m with
  | nil => cases he
  | cons a rest ih =>
      rw [List.map_cons, List.nodup_cons] at hnd
      rcases List.mem_cons.mp he with h1 | h1 <;> rcases List.mem_cons.mp he2 with h2 | h2
      · rw [h1, h2]
      · exfalso; apply hnd.1; rw [← h1, ← hk]; exact List.mem_map_of_mem Prod.fst h2
      · exfalso
        apply hnd.1
        have hae : a.1 = e.1 := by rw [← h2]; exact hk
        rw [hae]
        exact List.mem_map_of_mem Prod.fst h1
      · exact ih hnd.2 h1 h2

/-- The invariant of the `source_map` loop: every entry of the final map
is witnessed by an input chunk with that filename, score and content, and
its score dominates every input chunk with the same filename (and every
same-keyed entry of the initial map). -/
theorem sourceMapAux_entries (xs : List Chunk) :
    ∀ (m : List MapEntry), (m.map Prod.fst).Nodup →
      ∀ e ∈ xs.foldl (fun m ch => upsert ch.filename ch.score ch.content m) m,
        (e ∈ m ∨ ∃ c ∈ xs, c.filename = e.1 ∧ c.score = e.2.1 ∧ c.content = e.2.2)
        ∧ (∀ c ∈ xs, c.filename = e.1 → c.score ≤ e.2.1)
        ∧ (∀ e2 ∈ m, e2.1 = e.1 → e2.2.1 ≤ e.2.1) := by
  induction xs with
  | nil =>
      intro m hnd e he
      refine ⟨Or.inl he, by simp, ?_⟩
      intro e2 he2 hk
      rw [nodup_keys_entry_inj m hnd e e2 he he2 hk]
  | cons ch rest ih =>
      intro m hnd e he
      rw [List.foldl_cons] at he
      have hnd2 := keys_upsert_nodup ch.filename ch.score ch.content m hnd
      obtain ⟨hwit, hbound, hdom⟩ := ih (upsert ch.filename ch.score ch.content m) hnd2 e he
      refine ⟨?_, ?_, ?_⟩
      · rcases hwit with hm | ⟨c, hc, hcf⟩
        · rcases mem_upsert _ _ _ _ _ hm with h2 | h2
          · exact Or.inl h2
          · exact Or.inr ⟨ch, List.mem_cons_self _ _, by rw [h2], by rw [h2], by rw [h2]⟩
        · exact Or.inr ⟨c, List.mem_cons_of_mem _ hc, hcf⟩
      · intro c hc hcf
        rcases List.mem_cons.mp hc with h2 | h2
        · obtain ⟨e2, he2, hk2⟩ := upsert_key_exists ch.filename ch.score ch.content m
          have hs2 : ch.score ≤ e2.2.1 := upsert_key_score_ge _ _ _ m hnd e2 he2 hk2
          have hs3 : e2.2.1 ≤ e.2.1 := hdom e2 he2 (by rw [hk2, ← h2]; exact hcf)
          subst h2
          linarith
        · exact hbound c h2 hcf
      · intro e2 he2 hk
        obtain ⟨e3, he3, hk3, hle3⟩ :=
          upsert_preserves_score ch.filename ch.score ch.content m e2 he2
        have hs3 : e3.2.1 ≤ e.2.1 := hdom e3 he3 (by rw [hk3, hk])
        linarith

theorem sourceMap_keys_nodup (xs : List Chunk) : ((sourceMap xs).map Prod.fst).Nodup := by
  have gen : ∀ (m : List MapEntry), (m.map Prod.fst).Nodup →
      ((xs.foldl (fun m ch => upsert ch.filename ch.score ch.content m) m).map Prod.fst).Nodup := by
    induction xs with
    | nil => intro m h; exact h
    | cons ch rest ih =>
        intro m h
        rw [List.foldl_cons]
        exact ih _ (keys_upsert_nodup _ _ _ _ h)
  exact gen [] (by simp)

theorem sourceMap_keys_mem (xs : List Chunk) (f : String) :
    f ∈ (sourceMap xs).map Prod.fst ↔ f ∈ xs.map Chunk.filename := by
  have gen : ∀ (m : List MapEntry),
      f ∈ (xs.foldl (fun m ch => upsert ch.filename ch.score ch.content m) m).map Prod.fst
        ↔ f ∈ m.map Prod.fst ∨ f ∈ xs.map Chunk.filename := by
    induction xs with
    | nil => intro m; simp
    | cons ch rest ih =>
        intro m
        rw [List.foldl_cons, ih, keys_upsert]
        by_cases hf : ch.filename ∈ m.map Prod.fst
        · rw [if_pos hf]
          simp only [List.map_cons, List.mem_cons]
          constructor
          · rintro (h | h)
            · exact Or.inl h
            · exact Or.inr (Or.inr h)
          · rintro (h | h | h)
            · exact Or.inl h
            · exact Or.inl (h ▸ hf)
            · exact Or.inr h
        · rw [if_neg hf]
          simp only [List.mem_append, List.mem_singleton, List.map_cons, List.mem_cons]
          tauto
  have h := gen []
  simpa using h

/-- The preview shape: first 200 characters, stripped, with the ellipsis
marker appended exactly when the content exceeds 200 characters. -/
theorem mkPreview_eq (content : String) :
    mkPreview content
      = stripStr (takeStr content 200) ++ (if 200 < content.data.length then "..." else "") := by
  unfold mkPreview
  split
  · rfl
  · simp

/-- C4: `dedupe_sources` returns one entry per distinct input filename
(output filenames are exactly the input filenames, without duplicates);
each entry carries the rounded maximum score over the chunks with its
filename and the preview of a maximum-scoring chunk (first 200 characters
trimmed, ellipsis marker iff the content exceeds 200 characters); the
output is ordered by score descending; and its length is at most the
number of distinct filenames in the input. -/
theorem dedupe_sources_spec (xs : List Chunk) :
    ((dedupe_sources xs).map Source.filename).Nodup
  ∧ (∀ f, f ∈ (dedupe_sources xs).map Source.filename ↔ f ∈ xs.map Chunk.filename)
  ∧ (∀ s2 ∈ dedupe_sources xs, ∃ c ∈ xs, c.filename = s2.filename
      ∧ (∀ c2 ∈ xs, c2.filename = s2.filename → c2.score ≤ c.score)
      ∧ s2.score = round3 c.score
      ∧ s2.preview = stripStr (takeStr c.content 200)
          ++ (if 200 < c.content.data.length then "..." else ""))
  ∧ (dedupe_sources xs).Pairwise (fun a b => b.score ≤ a.score)
  ∧ (dedupe_sources xs).length ≤ ((xs.map Chunk.filename).dedup).length := by
  have hperm : List.Perm (sortByDesc (fun e => e.2.1) (sourceMap xs)) (sourceMap xs) :=
    sortByDesc_perm _ _
  have hnd : ((sourceMap xs).map Prod.fst).Nodup := sourceMap_keys_nodup xs
  have hnames : (dedupe_sources xs).map Source.filename
      = (sortByDesc (fun e => e.2.1) (sourceMap xs)).map Prod.fst := by
    simp [dedupe_sources, List.map_map, Function.comp]
  have hpk : List.Perm ((sortByDesc (fun e => e.2.1) (sourceMap xs)).map Prod.fst)
      ((sourceMap xs).map Prod.fst) := hperm.map _
  refine ⟨?_, ?_, ?_, ?_, ?_⟩
  · rw [hnames]
    exact hpk.nodup_iff.mpr hnd
  · intro f
    rw [hnames, hpk.mem_iff, sourceMap_keys_mem]
  · intro s2 hs2
    simp only [dedupe_sources, List.mem_map] at hs2
    obtain ⟨e, hesort, hmk⟩ := hs2
    have hents : e ∈ sourceMap xs := hperm.subset hesort
    obtain ⟨hwit, hbound, -⟩ := sourceMapAux_entries xs [] (by simp) e hents
    rcases hwit with h0 | ⟨c, hc, hcf, hcs, hcc⟩
    · cases h0
    · refine ⟨c, hc, ?_, ?_, ?_, ?_⟩
      · rw [← hmk]; exact hcf
      · intro c2 hc2 hcf2
        rw [hcs]
        exact hbound c2 hc2 (by rw [hcf2, ← hmk])
      · rw [← hmk, hcs]
      · rw [← hmk, ← hcc]
        exact mkPreview_eq c.content
  · have hpw : (sortByDesc (fun e => e.2.1) (sourceMap xs)).Pairwise
        (fun a b => b.2.1 ≤ a.2.1) := sortByDesc_pairwise _ _
    simp only [dedupe_sources]
    rw [List.pairwise_map]
    exact hpw.imp (fun h => round3_mono h)
  · have hlen1 : (dedupe_sources xs).length = (sourceMap xs).length := by
      simp [dedupe_sources, hperm.length_eq]
    have hkeyperm : List.Perm ((sourceMap xs).map Prod.fst) ((xs.map Chunk.filename).dedup) := by
      refine (List.perm_ext_iff_of_nodup hnd (List.nodup_dedup _)).mpr ?_
      intro a
      rw [sourceMap_keys_mem, List.mem_dedup]
    have hlen2 : (sourceMap xs).length = ((xs.map Chunk.filename).dedup).length := by
      have := hkeyperm.length_eq
      simpa using this
    rw [hlen1, hlen2]

theorem upsert_fresh (f : String) (s : ℚ) (c : String) (m : List MapEntry)
    (h : f ∉ m.map Prod.fst) : upsert f s c m = m ++ [(f, s, c)] := by
  induction m with
  | nil => rfl
  | cons a rest ih =>
      simp only [List.map_cons, List.mem_cons] at h
      push_neg at h
      simp only [upsert]
      rw [if_neg (fun he => h.1 he.symm), ih h.2]
      simp

theorem foldl_upsert_fresh (l : List Chunk) :
    ∀ (m : List MapEntry), (l.map Chunk.filename).Nodup →
      (∀ c ∈ l, c.filename ∉ m.map Prod.fst) →
      l.foldl (fun m ch => upsert ch.filename ch.score ch.content m) m
        = m ++ l.map (fun c => (c.filename, c.score, c.content)) := by
  induction l with
  | nil => intro m _ _; simp
  | cons ch rest ih =>
      intro m hnd hdis
      rw [List.map_cons, List.nodup_cons] at hnd
      rw [List.foldl_cons, upsert_fresh _ _ _ m (hdis ch (List.mem_cons_self _ _)),
        ih _ hnd.2 ?_]
      · simp
      · intro c hc
        simp only [List.map_append, List.mem_append, List.map_cons, List.map_nil,
          List.mem_singleton]
        rintro (h | h)
        · exact hdis c (List.mem_cons_of_mem _ hc) h
        · exact hnd.1 (h ▸ List.mem_map_of_mem Chunk.filename hc)

/-- C5 counterexample: `dedupe_sources` is not idempotent. Its output rows
carry a `preview` key but no `content` key, so re-applying the function
reads `chunk.get("content", "")` as the empty string and the second pass
empties every preview. -/
theorem dedupe_sources_not_idempotent :
    dedupe_sources ((dedupe_sources [⟨"a", mkRat 1 2, "x"⟩]).map sourceAsChunk)
      ≠ dedupe_sources [⟨"a", mkRat 1 2, "x"⟩] := by decide

/-- Applying the `source_map` loop to chunks whose filenames are already
distinct copies each of them into one entry, in order. -/
theorem sourceMap_of_entry_chunks (l : List MapEntry) (hnd2 : (l.map Prod.fst).Nodup) :
    sourceMap (l.map (fun e => (⟨e.1, round3 e.2.1, ""⟩ : Chunk)))
      = l.map (fun e => ((e.1, round3 e.2.1, "") : MapEntry)) := by
  have hndc : ((l.map (fun (e : MapEntry) => (⟨e.1, round3 e.2.1, ""⟩ : Chunk))).map
      Chunk.filename).Nodup := by
    rw [List.map_map]
    exact hnd2
  unfold sourceMap
  rw [foldl_upsert_fresh _ [] hndc (by simp), List.map_map]
  rfl

/-- C5 amended: re-applying `dedupe_sources` to its own output preserves
the filenames, scores and order (the scores are already rounded and the
list already deduplicated and sorted), but replaces every preview by the
empty string, because output rows have no `content` key. -/
theorem dedupe_sources_reapply (xs : List Chunk) :
    dedupe_sources ((dedupe_sources xs).map sourceAsChunk)
      = (dedupe_sources xs).map (fun s => ⟨s.filename, s.score, ""⟩) := by
  have hnd : ((sourceMap xs).map Prod.fst).Nodup := sourceMap_keys_nodup xs
  have hperm := sortByDesc_perm (fun e => e.2.1) (sourceMap xs)
  have hnds : ((sortByDesc (fun e => e.2.1) (sourceMap xs)).map Prod.fst).Nodup :=
    (hperm.map Prod.fst).nodup_iff.mpr hnd
  simp only [dedupe_sources]
  rw [List.map_map]
  rw [show List.map (sourceAsChunk
      ∘ (fun e => (⟨e.1, round3 e.2.1, mkPreview e.2.2⟩ : Source)))
        (sortByDesc (fun e => e.2.1) (sourceMap xs))
      = List.map (fun (e : MapEntry) => (⟨e.1, round3 e.2.1, ""⟩ : Chunk))
        (sortByDesc (fun e => e.2.1) (sourceMap xs))
    from List.map_congr_left (fun e _ => rfl)]
  have hsm := sourceMap_of_entry_chunks (sortByDesc (fun e => e.2.1) (sourceMap xs)) hnds
  have hpw0 : (sortByDesc (fun e => e.2.1) (sourceMap xs)).Pairwise
      (fun a b => round3 b.2.1 ≤ round3 a.2.1) := by
    refine List.Pairwise.imp ?_ (sortByDesc_pairwise (fun e => e.2.1) (sourceMap xs))
    intro a b h
    exact round3_mono h
  have hpw : ((sortByDesc (fun e => e.2.1) (sourceMap xs)).map
      (fun e => ((e.1, round3 e.2.1, "") : MapEntry))).Pairwise
        (fun a b => b.2.1 ≤ a.2.1) := List.pairwise_map.mpr hpw0
  rw [hsm, sortByDesc_of_pairwise _ _ hpw, List.map_map, List.map_map]
  apply List.map_congr_left
  intro e _
  show (⟨e.1, round3 (round3 e.2.1), mkPreview ""⟩ : Source) = ⟨e.1, round3 e.2.1, ""⟩
  rw [round3_idem]
  rfl

/-- C3: on the answer path, the generation context is the gated set sorted
by score descending (a permutation of the gated set, pairwise
non-increasing) keeping at most 5 chunks; the cited sources are computed by
deduplicating exactly the top-5 chunks whose score reaches the fixed 0.30
citation threshold; and when no top-5 chunk reaches 0.30 the sources list
is empty while the top-5 chunks are still the generation context. -/
theorem answer_context_and_sources (chunks : List Chunk) (minScore : ℚ)
    (h : strongChunks chunks minScore ≠ []) :
    ragDecision "factual" true chunks minScore
      = RagPath.answer
          ((sortByDesc (fun c => c.score) (strongChunks chunks minScore)).take 5)
          (dedupe_sources
            (((sortByDesc (fun c => c.score) (strongChunks chunks minScore)).take 5).filter
              (fun c => mkRat 3 10 ≤ c.score)))
          (buildContext
            ((sortByDesc (fun c => c.score) (strongChunks chunks minScore)).take 5))
  ∧ ((sortByDesc (fun c => c.score) (strongChunks chunks minScore)).take 5).Pairwise
      (fun a b => b.score ≤ a.score)
  ∧ ((sortByDesc (fun c => c.score) (strongChunks chunks minScore)).take 5).length ≤ 5
  ∧ List.Perm (sortByDesc (fun c => c.score) (strongChunks chunks minScore))
      (strongChunks chunks minScore)
  ∧ ((∀ c ∈ (sortByDesc (fun c => c.score) (strongChunks chunks minScore)).take 5,
        c.score < mkRat 3 10) →
      dedupe_sources
        (((sortByDesc (fun c => c.score) (strongChunks chunks minScore)).take 5).filter
          (fun c => mkRat 3 10 ≤ c.score)) = []) := by
  have hred : ragDecision "factual" true chunks minScore
      = (if (strongChunks chunks minScore).isEmpty then RagPath.notFound
        else RagPath.answer
          ((sortByDesc (fun c => c.score) (strongChunks chunks minScore)).take 5)
          (dedupe_sources
            (((sortByDesc (fun c => c.score) (strongChunks chunks minScore)).take 5).filter
              (fun c => mkRat 3 10 ≤ c.score)))
          (buildContext
            ((sortByDesc (fun c => c.score) (strongChunks chunks minScore)).take 5))) := rfl
  have hempty : (strongChunks chunks minScore).isEmpty = false := by
    cases hsc : strongChunks chunks minScore with
    | nil => exact absurd hsc h
    | cons a as => rfl
  refine ⟨?_, ?_, ?_, sortByDesc_perm _ _, ?_⟩
  · rw [hred, hempty]
    rfl
  · exact (sortByDesc_pairwise (fun c => c.score) (strongChunks chunks minScore)).sublist
      (List.take_sublist 5 _)
  · rw [List.length_take]
    exact min_le_left _ _
  · intro hall
    have hf : ((sortByDesc (fun c => c.score) (strongChunks chunks minScore)).take 5).filter
        (fun c => mkRat 3 10 ≤ c.score) = [] := by
      rw [List.filter_eq_nil_iff]
      intro c hc
      simp only [decide_eq_true_eq, not_le]
      exact hall c hc
    rw [hf]
    rfl

/-- C3 witness: a single retrieved chunk with score 0.45 and
`min_score = 0.15` gates through and the answer path is taken with the
stated context and sources. -/
theorem answer_context_and_sources_witness :
    ragDecision "factual" true [⟨"a", mkRat 45 100, "hello"⟩] (mkRat 15 100)
      = RagPath.answer
          ((sortByDesc (fun c => c.score)
            (strongChunks [⟨"a", mkRat 45 100, "hello"⟩] (mkRat 15 100))).take 5)
          (dedupe_sources
            (((sortByDesc (fun c => c.score)
              (strongChunks [⟨"a", mkRat 45 100, "hello"⟩] (mkRat 15 100))).take 5).filter
                (fun c => mkRat 3 10 ≤ c.score)))
          (buildContext
            ((sortByDesc (fun c => c.score)
              (strongChunks [⟨"a", mkRat 45 100, "hello"⟩] (mkRat 15 100))).take 5)) :=
  (answer_context_and_sources [⟨"a", mkRat 45 100, "hello"⟩] (mkRat 15 100) (by decide)).1

end RagSpec
